import Mathlib

/-!
Shallow embedding of the knifefish128 cipher (src/src/kf128.c) and proofs about
its stated properties.  Blocks are lists of byte values (Nat), 32-bit words are
Nat kept below 2^32 by explicit reduction, and the word/byte boundary uses the
little-endian layout of the reference platform.
-/

namespace KF128

/-- Modelled from the spec: the header kf128.h is not under src/; spec section 3
fixes 256-entry substitution boxes, so SBOX_SIZE = 256. -/
def SBOX_SIZE : Nat := 256

/-- Modelled from the spec: the F function substitutes 8 bytes, one substitution
box per byte position, so SBOX_COUNT = 8 (kf128.h is not under src/). -/
def SBOX_COUNT : Nat := 8

/-- Modelled from the spec: the permutation box ranges over [0, S) where S is the
substitution-box count, so PBOX_SIZE = 8 (kf128.h is not under src/). -/
def PBOX_SIZE : Nat := 8

/-- Modelled from the spec: a fixed 16-round Feistel structure, ROUNDS = 16
(kf128.h is not under src/). -/
def ROUNDS : Nat := 16

/-- Modelled from the spec: accumulator word count = 8 sbox seeds + 1 pbox seed
+ 2 words x 16 rounds + 4 words x 2 whitening quadruples = 49 (kf128.h is not
under src/). -/
def KEY_SIZE : Nat := 49

/-- Modelled from the spec: two whitening-key quadruples, WKEY_COUNT = 2
(kf128.h is not under src/). -/
def WKEY_COUNT : Nat := 2

/-- Modelled from the spec: 16-byte cipher blocks, BLOCK_SIZE = 16 (kf128.h is
not under src/). -/
def BLOCK_SIZE : Nat := 16

/-- Modelled from the spec: PHT arithmetic is modulo 2^32 (spec section 4.2), so
the header constant PHT_MAX is 2^32 and `x % PHT_MAX` on a uint32 value is the
identity (kf128.h is not under src/). -/
def PHT_MAX : Nat := 2 ^ 32

/-- One step of the 32-bit LFSR (kf_lfsr): feedback bit is the XOR of bits
31, 6, 4, 2, 1, 0; shift right by one and insert the feedback bit at bit 31. -/
def kf_lfsr (r : Nat) : Nat :=
  ((((r >>> 31) ^^^ (r >>> 6) ^^^ (r >>> 4) ^^^ (r >>> 2) ^^^ (r >>> 1) ^^^ r) &&& 1) <<< 31) |||
    (r >>> 1)

/-- Iterate the LFSR n times. -/
def kf_lfsrN : Nat → Nat → Nat
  | 0, r => r
  | n + 1, r => kf_lfsrN n (kf_lfsr r)

/-- kf_lfsr_byte: advance the register 8 times, return the low 8 bits together
with the advanced register. -/
def kf_lfsr_byte (r : Nat) : Nat × Nat :=
  (kf_lfsrN 8 r &&& 255, kf_lfsrN 8 r)

/-- kf_pht, transcribed with the C operator precedence and uint32 truncation on
assignment: ap = (a + (b % PHT_MAX)) mod 2^32 and bp = (a + ((2*b) mod 2^32 %
PHT_MAX)) mod 2^32 (the 2*b product is computed in uint32 arithmetic). -/
def kf_pht (a b : Nat) : Nat × Nat :=
  ((a + b % PHT_MAX) % 2 ^ 32, (a + 2 * b % 2 ^ 32 % PHT_MAX) % 2 ^ 32)

/-- Shuffle core of kf_init_sbox / kf_init_pbox: at each step draw a byte from
the LFSR, reduce it modulo the remaining pool size (the C modulus SIZE - i
equals the pool length), emit the selected pool entry and remove it (the C
memmove compaction). The fuel argument is the initial pool length. -/
def kf_shuffle : Nat → List Nat → Nat → List Nat
  | 0, _, _ => []
  | n + 1, pool, reg =>
    let drawn := kf_lfsr_byte reg
    let idx := drawn.1 % pool.length
    pool.getD idx 0 :: kf_shuffle n (pool.eraseIdx idx) drawn.2

/-- kf_init_sbox: shuffle the identity permutation of [0,256) with the seed. -/
def kf_init_sbox (seed : Nat) : List Nat :=
  kf_shuffle SBOX_SIZE (List.range SBOX_SIZE) seed

/-- kf_init_pbox: shuffle the identity permutation of [0,PBOX_SIZE) with the
seed. -/
def kf_init_pbox (seed : Nat) : List Nat :=
  kf_shuffle PBOX_SIZE (List.range PBOX_SIZE) seed

/-- strlen of the NUL-terminated passphrase, over a byte list. -/
def kf_strlen (pass : List Nat) : Nat := (pass.takeWhile (fun b => b != 0)).length

/-- Truncated passphrase length: `(strlen(passphrase) > 256) ? 256 : strlen(passphrase)`. -/
def kf_passlen (pass : List Nat) : Nat := min (kf_strlen pass) 256

/-- Value of `passlen - 4` as the C computes it in size_t (wraps modulo 2^64). -/
def kf_chunkBound (passlen : Nat) : Nat := (passlen + (2 ^ 64 - 4)) % 2 ^ 64

/-- Trip count of the chunk loop `for (size_t i = 0; i < passlen - 4; i += 4)`:
the indices visited are the multiples of 4 below kf_chunkBound.  (When the bound
has underflown, i itself would eventually wrap and the C loop never exits; the
count below is the number of distinct indices visited before the wrap.) -/
def kf_chunkTrips (passlen : Nat) : Nat := (kf_chunkBound passlen + 3) / 4

/-- Start offsets visited by the chunk loop, in order: 0, 4, 8, ... -/
def kf_chunkStarts (passlen : Nat) : List Nat :=
  (List.range (kf_chunkTrips passlen)).map (fun k => 4 * k)

/-- Register load of a 4-byte chunk, transcribed with the C cast placement
`(uint8_t)b0 | (uint8_t)(b1 << 8) | (uint8_t)(b2 << 16) | (uint8_t)(b3 << 24)`:
each uint8_t cast keeps only the low 8 bits of the already-shifted value. -/
def kf_loadChunk (b0 b1 b2 b3 : Nat) : Nat :=
  (b0 &&& 255) ||| ((b1 <<< 8) &&& 255) ||| ((b2 <<< 16) &&& 255) ||| ((b3 <<< 24) &&& 255)

/-- Inner loop of one chunk: each accumulator word XORs in the current register,
then the register advances 32 times before the next word. -/
def kf_mixChunk (key : List Nat) (reg : Nat) : List Nat :=
  (key.foldl (fun acc w => (acc.1 ++ [w ^^^ acc.2], kf_lfsrN 32 acc.2)) (([] : List Nat), reg)).1

/-- The 4-byte `last` buffer: zero-initialized, then `last[i] =
passphrase[passlen - 4 + i]` for i < passlen % 4, where passlen - 4 is the
size_t value kf_chunkBound passlen. -/
def kf_lastBytes (pass : List Nat) (passlen : Nat) : List Nat :=
  (List.range 4).map
    (fun i => if i < passlen % 4 then pass.getD (kf_chunkBound passlen + i) 0 else 0)

/-- Accumulator key words of kf_expand_passphrase: zero-initialized KEY_SIZE
words, mixed once per chunk-loop trip and once for the remainder buffer. -/
def kf_keyWords (pass : List Nat) : List Nat :=
  let n := kf_passlen pass
  let chunkKey := (kf_chunkStarts n).foldl
    (fun key i => kf_mixChunk key
      (kf_loadChunk (pass.getD i 0) (pass.getD (i + 1) 0) (pass.getD (i + 2) 0)
        (pass.getD (i + 3) 0)))
    (List.replicate KEY_SIZE 0)
  let last := kf_lastBytes pass n
  kf_mixChunk chunkKey
    (kf_loadChunk (last.getD 0 0) (last.getD 1 0) (last.getD 2 0) (last.getD 3 0))

/-- The cipher context: 8 substitution boxes, one permutation box, 16 round
subkey pairs, 2 whitening quadruples. -/
structure kf_ctx where
  sbox : List (List Nat)
  pbox : List Nat
  skey : List (List Nat)
  wkey : List (List Nat)

/-- kf_expand_passphrase: partition the accumulator words, in order, into sbox
seeds (key[0..7]), the pbox seed (key[8]), 16 subkey pairs (key[9..40]) and 2
whitening quadruples (key[41..48]). -/
def kf_expand_passphrase (pass : List Nat) : kf_ctx :=
  let key := kf_keyWords pass
  { sbox := (List.range SBOX_COUNT).map (fun i => kf_init_sbox (key.getD i 0))
    pbox := kf_init_pbox (key.getD 8 0)
    skey := (List.range ROUNDS).map (fun i => [key.getD (9 + 2 * i) 0, key.getD (10 + 2 * i) 0])
    wkey := [[key.getD 41 0, key.getD 42 0, key.getD 43 0, key.getD 44 0],
             [key.getD 45 0, key.getD 46 0, key.getD 47 0, key.getD 48 0]] }

/-- kf_invert_ctx: copy the context, reverse the round-subkey order, swap the
two whitening quadruples. -/
def kf_invert_ctx (k : kf_ctx) : kf_ctx :=
  { k with
    skey := (List.range ROUNDS).map (fun i => k.skey.getD (ROUNDS - i - 1) [])
    wkey := [k.wkey.getD 1 [], k.wkey.getD 0 []] }

/-- Little-endian bytes of a 32-bit word, as laid out in memory on the
reference platform. -/
def kf_wordToBytes (w : Nat) : List Nat :=
  [w % 256, w / 256 % 256, w / 65536 % 256, w / 16777216 % 256]

/-- Little-endian packing of 4 bytes into a 32-bit word. -/
def kf_bytesToWord (b0 b1 b2 b3 : Nat) : Nat :=
  b0 + 256 * b1 + 65536 * b2 + 16777216 * b3

/-- Byte image of a whitening quadruple (four 32-bit words in memory). -/
def kf_wkeyBytes (ws : List Nat) : List Nat := ws.flatMap kf_wordToBytes

/-- kf_f on an 8-byte half block: scatter `out8[pbox[i]] = sbox[i][in8[i]]`
(the replicate-8 start stands for the uninitialized out buffer; with a
bijective pbox every byte is written), then PHT the two words and XOR the round
subkey pair. -/
def kf_f (inp : List Nat) (round : Nat) (ctx : kf_ctx) : List Nat :=
  let scattered := (List.range SBOX_COUNT).foldl
    (fun out i => out.set (ctx.pbox.getD i 0) ((ctx.sbox.getD i []).getD (inp.getD i 0) 0))
    (List.replicate 8 0)
  let p := kf_pht
    (kf_bytesToWord (scattered.getD 0 0) (scattered.getD 1 0) (scattered.getD 2 0)
      (scattered.getD 3 0))
    (kf_bytesToWord (scattered.getD 4 0) (scattered.getD 5 0) (scattered.getD 6 0)
      (scattered.getD 7 0))
  kf_wordToBytes (p.1 ^^^ (ctx.skey.getD round []).getD 0 0) ++
    kf_wordToBytes (p.2 ^^^ (ctx.skey.getD round []).getD 1 0)

/-- kf_round on a 16-byte block: tmp = f(R) XOR L; all but the final round
output R ++ tmp, the final round outputs tmp ++ R. -/
def kf_round (inp : List Nat) (round : Nat) (ctx : kf_ctx) : List Nat :=
  let tmp := List.zipWith Nat.xor (kf_f (inp.drop 8) round ctx) (inp.take 8)
  if round ≠ ROUNDS - 1 then inp.drop 8 ++ tmp else tmp ++ inp.drop 8

/-- kf_block on a 16-byte block: pre-whiten with wkey[0], 16 rounds, post-whiten
with wkey[1]. -/
def kf_block (inp : List Nat) (ctx : kf_ctx) : List Nat :=
  let b0 := List.zipWith Nat.xor inp (kf_wkeyBytes (ctx.wkey.getD 0 []))
  let b1 := (List.range ROUNDS).foldl (fun b i => kf_round b i ctx) b0
  List.zipWith Nat.xor b1 (kf_wkeyBytes (ctx.wkey.getD 1 []))

/-- Split the first 16*n bytes of a stream into n consecutive 16-byte reads. -/
def kf_chunks : Nat → List Nat → List (List Nat)
  | 0, _ => []
  | n + 1, bs => bs.take 16 :: kf_chunks n (bs.drop 16)

/-- Final partial block of the encryptor: 16 bytes of padding, the first
`remaining` of them overwritten by the tail plaintext bytes, and the last byte
set to the literal value `remaining`. -/
def kf_padLast (tail padding : List Nat) (remaining : Nat) : List Nat :=
  (tail ++ (padding.take 16).drop remaining).take 15 ++ [remaining]

/-- Plaintext block sequence of kf_encrypt_file_cbc: full 16-byte reads,
followed by the padded partial block when the input size is not a multiple of
16, or by the extra all-zero terminator block when it is. -/
def kf_ptBlocks (pt padding : List Nat) : List (List Nat) :=
  if pt.length % 16 = 0 then
    kf_chunks (pt.length / 16) pt ++ [List.replicate 16 0]
  else
    kf_chunks (pt.length / 16) pt ++
      [kf_padLast (pt.drop (16 * (pt.length / 16))) padding (pt.length % 16)]

/-- CBC chaining of the encryptor: each plaintext block is XORed with the chain
value and enciphered; the ciphertext becomes the next chain value. -/
def kf_cbcEnc (ctx : kf_ctx) : List Nat → List (List Nat) → List (List Nat)
  | _, [] => []
  | key, p :: ps =>
    kf_block (List.zipWith Nat.xor p key) ctx ::
      kf_cbcEnc ctx (kf_block (List.zipWith Nat.xor p key) ctx) ps

/-- CBC unchaining of the decryptor: each ciphertext block runs through
kf_block with the inverted context and is XORed with the chain value; the
ciphertext block just read becomes the next chain value. -/
def kf_cbcDec (inv : kf_ctx) : List Nat → List (List Nat) → List (List Nat)
  | _, [] => []
  | key, c :: cs => List.zipWith Nat.xor (kf_block c inv) key :: kf_cbcDec inv c cs

/-- kf_encrypt_file_cbc as a byte-stream transform: write the 16 IV bytes, then
the CBC-chained ciphertext blocks, chaining from the IV. -/
def kf_encrypt_file_cbc (pass iv padding pt : List Nat) : List Nat :=
  iv.take 16 ++
    (kf_cbcEnc (kf_expand_passphrase pass) (iv.take 16) (kf_ptBlocks pt padding)).flatten

/-- Recovered (pre-truncation) plaintext blocks of kf_decrypt_file_cbc: the
first 16 stream bytes are the initial chain value and input_size/16 - 1 blocks
are processed. -/
def kf_decrypt_recovered (pass s : List Nat) : List (List Nat) :=
  kf_cbcDec (kf_invert_ctx (kf_expand_passphrase pass)) (s.take 16)
    (kf_chunks (s.length / 16 - 1) (s.drop 16))

/-- kf_decrypt_file_cbc as a byte-stream transform: write every recovered block
in full except the last, of which the first `tmp[15]` bytes are written (the C
fwrite reads past the 16-byte buffer when that byte exceeds 16; the list model
clamps the read at the buffer end). -/
def kf_decrypt_file_cbc (pass s : List Nat) : List Nat :=
  (kf_decrypt_recovered pass s).dropLast.flatten ++
    (match (kf_decrypt_recovered pass s).getLast? with
     | none => []
     | some lb => lb.take (lb.getD 15 0))

/-- kf_f with the context state threaded explicitly: the body reads ctx->pbox,
ctx->sbox and ctx->skey and writes only the out buffer, so the context it
leaves behind is the one it received. -/
def kf_f_st (inp : List Nat) (round : Nat) (ctx : kf_ctx) : List Nat × kf_ctx :=
  let scattered := (List.range SBOX_COUNT).foldl
    (fun out i => out.set (ctx.pbox.getD i 0) ((ctx.sbox.getD i []).getD (inp.getD i 0) 0))
    (List.replicate 8 0)
  let p := kf_pht
    (kf_bytesToWord (scattered.getD 0 0) (scattered.getD 1 0) (scattered.getD 2 0)
      (scattered.getD 3 0))
    (kf_bytesToWord (scattered.getD 4 0) (scattered.getD 5 0) (scattered.getD 6 0)
      (scattered.getD 7 0))
  (kf_wordToBytes (p.1 ^^^ (ctx.skey.getD round []).getD 0 0) ++
    kf_wordToBytes (p.2 ^^^ (ctx.skey.getD round []).getD 1 0), ctx)

/-- kf_round with the context state threaded explicitly through kf_f_st. -/
def kf_round_st (inp : List Nat) (round : Nat) (ctx : kf_ctx) : List Nat × kf_ctx :=
  let f := kf_f_st (inp.drop 8) round ctx
  let tmp := List.zipWith Nat.xor f.1 (inp.take 8)
  (if round ≠ ROUNDS - 1 then inp.drop 8 ++ tmp else tmp ++ inp.drop 8, f.2)

/-- kf_block with the context state threaded explicitly through the 16 calls to
kf_round_st. -/
def kf_block_st (inp : List Nat) (ctx : kf_ctx) : List Nat × kf_ctx :=
  let b0 := List.zipWith Nat.xor inp (kf_wkeyBytes (ctx.wkey.getD 0 []))
  let s := (List.range ROUNDS).foldl (fun st i => kf_round_st st.1 i st.2) (b0, ctx)
  (List.zipWith Nat.xor s.1 (kf_wkeyBytes (s.2.wkey.getD 1 [])), s.2)

/-- Abstract Feistel step sequence without the final-round swap: one step maps
(l, r) to (r, f r XOR l). -/
def feistelSteps : List (List Nat → List Nat) → List Nat → List Nat → List Nat × List Nat
  | [], l, r => (l, r)
  | f :: fs, l, r => feistelSteps fs r (List.zipWith Nat.xor (f r) l)

/-- The per-round F functions of a context, in round order. -/
def kf_roundFuns (ctx : kf_ctx) : List (List Nat → List Nat) :=
  (List.range ROUNDS).map (fun i => fun h => kf_f h i ctx)

lemma kf_shuffle_perm : ∀ (n : Nat) (pool : List Nat) (reg : Nat), pool.length = n →
    (kf_shuffle n pool reg).Perm pool := by
  intro n
  induction n with
  | zero =>
    intro pool reg h
    simp [kf_shuffle, List.length_eq_zero.mp h]
  | succ n ih =>
    intro pool reg h
    have hpos : 0 < pool.length := by omega
    have hidx : (kf_lfsr_byte reg).1 % pool.length < pool.length := Nat.mod_lt _ hpos
    have herase : (pool.eraseIdx ((kf_lfsr_byte reg).1 % pool.length)).length = n := by
      rw [List.length_eraseIdx]
      simp [hidx]
      omega
    have hperm := ih (pool.eraseIdx ((kf_lfsr_byte reg).1 % pool.length))
      (kf_lfsr_byte reg).2 herase
    have hsplit : List.Perm
        (pool.getD ((kf_lfsr_byte reg).1 % pool.length) 0 ::
          pool.eraseIdx ((kf_lfsr_byte reg).1 % pool.length)) pool := by
      have hpool : pool = pool.take ((kf_lfsr_byte reg).1 % pool.length) ++
          pool[(kf_lfsr_byte reg).1 % pool.length] ::
          pool.drop ((kf_lfsr_byte reg).1 % pool.length + 1) := by
        rw [List.getElem_cons_drop, List.take_append_drop]
      rw [List.getD_eq_getElem pool 0 hidx, List.eraseIdx_eq_take_drop_succ]
      conv_rhs => rw [hpool]
      exact List.perm_middle.symm
    have hstep : List.Perm (kf_shuffle (n + 1) pool reg)
        (pool.getD ((kf_lfsr_byte reg).1 % pool.length) 0 ::
          pool.eraseIdx ((kf_lfsr_byte reg).1 % pool.length)) := by
      simpa [kf_shuffle] using hperm.cons (pool.getD ((kf_lfsr_byte reg).1 % pool.length) 0)
    exact hstep.trans hsplit

lemma kf_init_sbox_perm (seed : Nat) : (kf_init_sbox seed).Perm (List.range 256) :=
  kf_shuffle_perm _ _ _ (by simp [SBOX_SIZE])

lemma kf_init_pbox_perm (seed : Nat) : (kf_init_pbox seed).Perm (List.range 8) :=
  kf_shuffle_perm _ _ _ (by simp [PBOX_SIZE])

lemma xor_xor_cancel_left (a b : Nat) : Nat.xor a (Nat.xor a b) = b := by
  show a ^^^ (a ^^^ b) = b
  rw [← Nat.xor_assoc, Nat.xor_self, Nat.zero_xor]

lemma xor_xor_cancel_right (a b : Nat) : Nat.xor (Nat.xor a b) b = a := by
  show (a ^^^ b) ^^^ b = a
  rw [Nat.xor_assoc, Nat.xor_self, Nat.xor_zero]

lemma zipWith_xor_cancel_left (a b : List Nat) (h : a.length = b.length) :
    List.zipWith Nat.xor a (List.zipWith Nat.xor a b) = b := by
  induction a generalizing b with
  | nil => cases b <;> simp_all
  | cons x xs ih =>
    cases b with
    | nil => simp at h
    | cons y ys => simp [xor_xor_cancel_left, ih ys (by simpa using h)]

lemma zipWith_xor_cancel_right (a b : List Nat) (h : a.length = b.length) :
    List.zipWith Nat.xor (List.zipWith Nat.xor a b) b = a := by
  induction a generalizing b with
  | nil => cases b <;> simp_all
  | cons x xs ih =>
    cases b with
    | nil => simp at h
    | cons y ys => simp [xor_xor_cancel_right, ih ys (by simpa using h)]

lemma zipWith_xor_length (a b : List Nat) (h : a.length = b.length) :
    (List.zipWith Nat.xor a b).length = a.length := by
  simp [List.length_zipWith, h]

lemma kf_wordToBytes_length (w : Nat) : (kf_wordToBytes w).length = 4 := rfl

lemma kf_f_length (inp : List Nat) (round : Nat) (ctx : kf_ctx) :
    (kf_f inp round ctx).length = 8 := by
  simp [kf_f, kf_wordToBytes]

lemma kf_wkeyBytes_length (ws : List Nat) : (kf_wkeyBytes ws).length = 4 * ws.length := by
  induction ws with
  | nil => rfl
  | cons w ws ih => simp [kf_wkeyBytes, kf_wordToBytes] at ih ⊢; omega

lemma take8_append (a b : List Nat) (h : a.length = 8) : (a ++ b).take 8 = a := by
  rw [← h, List.take_left]

lemma drop8_append (a b : List Nat) (h : a.length = 8) : (a ++ b).drop 8 = b := by
  rw [← h, List.drop_left]

lemma feistelSteps_append (fs gs : List (List Nat → List Nat)) :
    ∀ l r, feistelSteps (fs ++ gs) l r =
      feistelSteps gs (feistelSteps fs l r).1 (feistelSteps fs l r).2 := by
  induction fs with
  | nil => intro l r; rfl
  | cons f fs ih => intro l r; simp [feistelSteps, ih]

lemma feistelSteps_lengths (fs : List (List Nat → List Nat)) :
    ∀ l r, (∀ f ∈ fs, ∀ x, (f x).length = 8) → l.length = 8 → r.length = 8 →
      (feistelSteps fs l r).1.length = 8 ∧ (feistelSteps fs l r).2.length = 8 := by
  induction fs with
  | nil => intro l r _ hl hr; exact ⟨hl, hr⟩
  | cons f fs ih =>
    intro l r hf hl hr
    refine ih r (List.zipWith Nat.xor (f r) l) (fun g hg => hf g (List.mem_cons_of_mem f hg))
      hr ?_
    rw [zipWith_xor_length _ _ (by rw [hf f (List.mem_cons_self f fs) r, hl])]
    exact hf f (List.mem_cons_self f fs) r

lemma feistelSteps_inv (fs : List (List Nat → List Nat)) :
    ∀ l r, (∀ f ∈ fs, ∀ x, (f x).length = 8) → l.length = 8 → r.length = 8 →
      feistelSteps fs.reverse (feistelSteps fs l r).2 (feistelSteps fs l r).1 = (r, l) := by
  induction fs with
  | nil => intro l r _ _ _; rfl
  | cons f fs ih =>
    intro l r hf hl hr
    have hfr : (f r).length = 8 := hf f (List.mem_cons_self f fs) r
    have htmp : (List.zipWith Nat.xor (f r) l).length = 8 := by
      rw [zipWith_xor_length _ _ (by rw [hfr, hl])]; exact hfr
    have hstep := ih r (List.zipWith Nat.xor (f r) l)
      (fun g hg => hf g (List.mem_cons_of_mem f hg)) hr htmp
    have hrev : (f :: fs).reverse = fs.reverse ++ [f] := by simp
    rw [show feistelSteps (f :: fs) l r =
        feistelSteps fs r (List.zipWith Nat.xor (f r) l) from rfl, hrev,
      feistelSteps_append, hstep]
    show feistelSteps [] r (List.zipWith Nat.xor (f r)
      (List.zipWith Nat.xor (f r) l)) = (r, l)
    rw [zipWith_xor_cancel_left _ _ (by rw [hfr, hl])]
    rfl

lemma kf_round_length (x : List Nat) (i : Nat) (ctx : kf_ctx) (hx : x.length = 16) :
    (kf_round x i ctx).length = 16 := by
  have h8 : (List.zipWith Nat.xor (kf_f (x.drop 8) i ctx) (x.take 8)).length = 8 := by
    rw [zipWith_xor_length _ _ (by simp [kf_f_length, hx])]
    exact kf_f_length _ _ _
  by_cases h : i ≠ ROUNDS - 1 <;> simp [kf_round, h, h8, hx]

lemma foldl_rounds_nonfinal (ctx : kf_ctx) (is : List Nat) :
    ∀ x : List Nat, (∀ i ∈ is, i ≠ ROUNDS - 1) → x.length = 16 →
      is.foldl (fun b i => kf_round b i ctx) x =
        (feistelSteps (is.map (fun i => fun h => kf_f h i ctx)) (x.take 8) (x.drop 8)).1 ++
          (feistelSteps (is.map (fun i => fun h => kf_f h i ctx)) (x.take 8) (x.drop 8)).2 := by
  induction is with
  | nil => intro x _ hx; simp [feistelSteps, List.take_append_drop]
  | cons i is ih =>
    intro x hns hx
    have hi : i ≠ ROUNDS - 1 := hns i (List.mem_cons_self i is)
    have hR : (x.drop 8).length = 8 := by simp [hx]
    have htmp : (List.zipWith Nat.xor (kf_f (x.drop 8) i ctx) (x.take 8)).length = 8 := by
      rw [zipWith_xor_length _ _ (by simp [kf_f_length, hx])]
      exact kf_f_length _ _ _
    have hstep : kf_round x i ctx =
        x.drop 8 ++ List.zipWith Nat.xor (kf_f (x.drop 8) i ctx) (x.take 8) := by
      simp [kf_round, hi]
    have hlen : (kf_round x i ctx).length = 16 := kf_round_length x i ctx hx
    rw [List.foldl_cons, ih (kf_round x i ctx) (fun j hj => hns j (List.mem_cons_of_mem i hj))
      hlen]
    rw [hstep, take8_append _ _ hR, drop8_append _ _ hR]
    rfl

lemma kf_block_middle (ctx : kf_ctx) (x : List Nat) (hx : x.length = 16) :
    (List.range ROUNDS).foldl (fun b i => kf_round b i ctx) x =
      (feistelSteps (kf_roundFuns ctx) (x.take 8) (x.drop 8)).2 ++
        (feistelSteps (kf_roundFuns ctx) (x.take 8) (x.drop 8)).1 := by
  have hsplit : List.range ROUNDS = List.range 15 ++ [15] := by
    rw [show ROUNDS = 15 + 1 from rfl, List.range_succ]
  have hfs : kf_roundFuns ctx =
      (List.range 15).map (fun i => fun h => kf_f h i ctx) ++
        [fun h => kf_f h 15 ctx] := by
    rw [kf_roundFuns, hsplit]; simp
  have hns : ∀ i ∈ List.range 15, i ≠ ROUNDS - 1 := by
    intro i hi
    have := List.mem_range.mp hi
    show i ≠ 15
    omega
  have hflen : ∀ f ∈ (List.range 15).map (fun i => fun h => kf_f h i ctx),
      ∀ y : List Nat, (f y).length = 8 := by
    intro f hf y
    obtain ⟨i, _, rfl⟩ := List.mem_map.mp hf
    exact kf_f_length _ _ _
  have hL : (x.take 8).length = 8 := by simp [hx]
  have hR : (x.drop 8).length = 8 := by simp [hx]
  have hP := feistelSteps_lengths ((List.range 15).map (fun i => fun h => kf_f h i ctx))
    (x.take 8) (x.drop 8) hflen hL hR
  rw [hsplit, List.foldl_append, foldl_rounds_nonfinal ctx (List.range 15) x hns hx]
  rw [hfs, feistelSteps_append]
  have hlast : kf_round
      ((feistelSteps ((List.range 15).map (fun i => fun h => kf_f h i ctx))
        (x.take 8) (x.drop 8)).1 ++
       (feistelSteps ((List.range 15).map (fun i => fun h => kf_f h i ctx))
        (x.take 8) (x.drop 8)).2) 15 ctx =
      List.zipWith Nat.xor
        (kf_f (feistelSteps ((List.range 15).map (fun i => fun h => kf_f h i ctx))
          (x.take 8) (x.drop 8)).2 15 ctx)
        (feistelSteps ((List.range 15).map (fun i => fun h => kf_f h i ctx))
          (x.take 8) (x.drop 8)).1 ++
      (feistelSteps ((List.range 15).map (fun i => fun h => kf_f h i ctx))
        (x.take 8) (x.drop 8)).2 := by
    rw [kf_round]
    rw [take8_append _ _ hP.1, drop8_append _ _ hP.1]
    simp [show ¬ ((15 : Nat) ≠ ROUNDS - 1) from by simp [ROUNDS]]
  simp only [List.foldl_cons, List.foldl_nil]
  rw [hlast]
  rfl

lemma getD_map_range {α : Type} (n i : Nat) (f : Nat → α) (d : α) (h : i < n) :
    ((List.range n).map f).getD i d = f i := by
  rw [List.getD_eq_getElem ((List.range n).map f) d (by simpa using h)]
  simp

lemma kf_f_invert (ctx : kf_ctx) (x : List Nat) (i : Nat) (hi : i < ROUNDS) :
    kf_f x i (kf_invert_ctx ctx) = kf_f x (ROUNDS - i - 1) ctx := by
  show kf_f x i (kf_invert_ctx ctx) = kf_f x (ROUNDS - i - 1) ctx
  unfold kf_f
  have hpb : (kf_invert_ctx ctx).pbox = ctx.pbox := rfl
  have hsb : (kf_invert_ctx ctx).sbox = ctx.sbox := rfl
  have hsk : (kf_invert_ctx ctx).skey.getD i [] = ctx.skey.getD (ROUNDS - i - 1) [] := by
    show ((List.range ROUNDS).map (fun j => ctx.skey.getD (ROUNDS - j - 1) [])).getD i [] =
      ctx.skey.getD (ROUNDS - i - 1) []
    exact getD_map_range ROUNDS i _ [] hi
  rw [hpb, hsb, hsk]

lemma kf_roundFuns_invert (ctx : kf_ctx) :
    kf_roundFuns (kf_invert_ctx ctx) = (kf_roundFuns ctx).reverse := by
  apply List.ext_getElem
  · simp [kf_roundFuns]
  intro i h1 h2
  have hi : i < ROUNDS := by simpa [kf_roundFuns] using h1
  have hlen : (kf_roundFuns ctx).length = ROUNDS := by simp [kf_roundFuns]
  rw [List.getElem_reverse]
  simp only [kf_roundFuns, List.getElem_map, List.getElem_range, List.length_map,
    List.length_range]
  funext y
  rw [kf_f_invert ctx y i hi]
  congr 1
  show ROUNDS - i - 1 = ROUNDS - 1 - i
  omega

lemma kf_roundFuns_len (ctx : kf_ctx) :
    ∀ f ∈ kf_roundFuns ctx, ∀ y : List Nat, (f y).length = 8 := by
  intro f hf y
  obtain ⟨i, _, rfl⟩ := List.mem_map.mp hf
  exact kf_f_length _ _ _

/-- Core inversion fact: for a context whose whitening quadruples are
well-formed, running kf_block forward and then with the inverted context is the
identity on 16-byte blocks. -/
lemma kf_block_invert (ctx : kf_ctx) (x : List Nat)
    (hw0 : (ctx.wkey.getD 0 []).length = 4) (hw1 : (ctx.wkey.getD 1 []).length = 4)
    (hx : x.length = 16) :
    kf_block (kf_block x ctx) (kf_invert_ctx ctx) = x := by
  have hw0b : (kf_wkeyBytes (ctx.wkey.getD 0 [])).length = 16 := by
    rw [kf_wkeyBytes_length, hw0]
  have hw1b : (kf_wkeyBytes (ctx.wkey.getD 1 [])).length = 16 := by
    rw [kf_wkeyBytes_length, hw1]
  have hb0 : (List.zipWith Nat.xor x (kf_wkeyBytes (ctx.wkey.getD 0 []))).length = 16 := by
    rw [zipWith_xor_length _ _ (by rw [hx, hw0b])]; exact hx
  have hL : ((List.zipWith Nat.xor x (kf_wkeyBytes (ctx.wkey.getD 0 []))).take 8).length = 8 :=
    by rw [List.length_take, hb0]; omega
  have hR : ((List.zipWith Nat.xor x (kf_wkeyBytes (ctx.wkey.getD 0 []))).drop 8).length = 8 :=
    by rw [List.length_drop, hb0]
  have hP := feistelSteps_lengths (kf_roundFuns ctx)
    ((List.zipWith Nat.xor x (kf_wkeyBytes (ctx.wkey.getD 0 []))).take 8)
    ((List.zipWith Nat.xor x (kf_wkeyBytes (ctx.wkey.getD 0 []))).drop 8)
    (kf_roundFuns_len ctx) hL hR
  have hinvw0 : (kf_invert_ctx ctx).wkey.getD 0 [] = ctx.wkey.getD 1 [] := rfl
  have hinvw1 : (kf_invert_ctx ctx).wkey.getD 1 [] = ctx.wkey.getD 0 [] := rfl
  have henc : kf_block x ctx =
      List.zipWith Nat.xor
        ((feistelSteps (kf_roundFuns ctx)
          ((List.zipWith Nat.xor x (kf_wkeyBytes (ctx.wkey.getD 0 []))).take 8)
          ((List.zipWith Nat.xor x (kf_wkeyBytes (ctx.wkey.getD 0 []))).drop 8)).2 ++
         (feistelSteps (kf_roundFuns ctx)
          ((List.zipWith Nat.xor x (kf_wkeyBytes (ctx.wkey.getD 0 []))).take 8)
          ((List.zipWith Nat.xor x (kf_wkeyBytes (ctx.wkey.getD 0 []))).drop 8)).1)
        (kf_wkeyBytes (ctx.wkey.getD 1 [])) := by
    rw [kf_block, kf_block_middle ctx _ hb0]
  rw [henc]
  rw [kf_block, hinvw0, hinvw1]
  rw [zipWith_xor_cancel_right _ _ (by rw [List.length_append, hP.1, hP.2, hw1b])]
  rw [kf_block_middle (kf_invert_ctx ctx) _ (by rw [List.length_append, hP.1, hP.2])]
  rw [take8_append _ _ hP.2, drop8_append _ _ hP.2]
  rw [kf_roundFuns_invert ctx]
  rw [feistelSteps_inv (kf_roundFuns ctx) _ _ (kf_roundFuns_len ctx) hL hR]
  rw [List.take_append_drop]
  exact zipWith_xor_cancel_right x _ (by rw [hx, hw0b])

lemma foldl_rounds_length (ctx : kf_ctx) (is : List Nat) :
    ∀ x : List Nat, x.length = 16 →
      (is.foldl (fun b i => kf_round b i ctx) x).length = 16 := by
  induction is with
  | nil => intro x hx; exact hx
  | cons i is ih => intro x hx; exact ih _ (kf_round_length x i ctx hx)

lemma kf_block_length (ctx : kf_ctx) (x : List Nat)
    (hw0 : (ctx.wkey.getD 0 []).length = 4) (hw1 : (ctx.wkey.getD 1 []).length = 4)
    (hx : x.length = 16) : (kf_block x ctx).length = 16 := by
  have hw0b : (kf_wkeyBytes (ctx.wkey.getD 0 [])).length = 16 := by
    rw [kf_wkeyBytes_length, hw0]
  have hw1b : (kf_wkeyBytes (ctx.wkey.getD 1 [])).length = 16 := by
    rw [kf_wkeyBytes_length, hw1]
  have hb0 : (List.zipWith Nat.xor x (kf_wkeyBytes (ctx.wkey.getD 0 []))).length = 16 := by
    rw [zipWith_xor_length _ _ (by rw [hx, hw0b])]; exact hx
  have hmid := foldl_rounds_length ctx (List.range ROUNDS) _ hb0
  rw [kf_block, zipWith_xor_length _ _ (by rw [hmid, hw1b])]
  exact hmid

lemma kf_expand_wkey0 (pass : List Nat) :
    (((kf_expand_passphrase pass).wkey.getD 0 []).length) = 4 := rfl

lemma kf_expand_wkey1 (pass : List Nat) :
    (((kf_expand_passphrase pass).wkey.getD 1 []).length) = 4 := rfl

lemma kf_cbcEnc_lengths (ctx : kf_ctx)
    (hw0 : (ctx.wkey.getD 0 []).length = 4) (hw1 : (ctx.wkey.getD 1 []).length = 4) :
    ∀ (ps : List (List Nat)) (key : List Nat), key.length = 16 →
      (∀ p ∈ ps, p.length = 16) → ∀ c ∈ kf_cbcEnc ctx key ps, c.length = 16 := by
  intro ps
  induction ps with
  | nil => intro key _ _ c hc; simp [kf_cbcEnc] at hc
  | cons p ps ih =>
    intro key hk hp c hc
    have hp16 : p.length = 16 := hp p (List.mem_cons_self p ps)
    have harg : (List.zipWith Nat.xor p key).length = 16 := by
      rw [zipWith_xor_length _ _ (by rw [hp16, hk])]; exact hp16
    have hcb : (kf_block (List.zipWith Nat.xor p key) ctx).length = 16 :=
      kf_block_length ctx _ hw0 hw1 harg
    rcases List.mem_cons.mp hc with h | h
    · rw [h]; exact hcb
    · exact ih _ hcb (fun q hq => hp q (List.mem_cons_of_mem p hq)) c h

lemma kf_cbcEnc_len (ctx : kf_ctx) :
    ∀ (ps : List (List Nat)) (key : List Nat), (kf_cbcEnc ctx key ps).length = ps.length := by
  intro ps
  induction ps with
  | nil => intro key; rfl
  | cons p ps ih => intro key; simp [kf_cbcEnc, ih]

lemma kf_cbcDec_cbcEnc (ctx : kf_ctx)
    (hw0 : (ctx.wkey.getD 0 []).length = 4) (hw1 : (ctx.wkey.getD 1 []).length = 4) :
    ∀ (ps : List (List Nat)) (key : List Nat), key.length = 16 →
      (∀ p ∈ ps, p.length = 16) →
      kf_cbcDec (kf_invert_ctx ctx) key (kf_cbcEnc ctx key ps) = ps := by
  intro ps
  induction ps with
  | nil => intro key _ _; rfl
  | cons p ps ih =>
    intro key hk hp
    have hp16 : p.length = 16 := hp p (List.mem_cons_self p ps)
    have harg : (List.zipWith Nat.xor p key).length = 16 := by
      rw [zipWith_xor_length _ _ (by rw [hp16, hk])]; exact hp16
    have hcb : (kf_block (List.zipWith Nat.xor p key) ctx).length = 16 :=
      kf_block_length ctx _ hw0 hw1 harg
    show List.zipWith Nat.xor
        (kf_block (kf_block (List.zipWith Nat.xor p key) ctx) (kf_invert_ctx ctx)) key ::
        kf_cbcDec (kf_invert_ctx ctx) (kf_block (List.zipWith Nat.xor p key) ctx)
          (kf_cbcEnc ctx (kf_block (List.zipWith Nat.xor p key) ctx) ps) = p :: ps
    rw [kf_block_invert ctx _ hw0 hw1 harg,
      zipWith_xor_cancel_right p key (by rw [hp16, hk]),
      ih _ hcb (fun q hq => hp q (List.mem_cons_of_mem p hq))]

lemma kf_chunks_mem_length (n : Nat) :
    ∀ bs : List Nat, 16 * n ≤ bs.length → ∀ c ∈ kf_chunks n bs, c.length = 16 := by
  induction n with
  | zero => intro bs _ c hc; simp [kf_chunks] at hc
  | succ n ih =>
    intro bs hlen c hc
    rcases List.mem_cons.mp hc with h | h
    · rw [h, List.length_take]; omega
    · exact ih (bs.drop 16) (by rw [List.length_drop]; omega) c h

lemma kf_chunks_flatten (n : Nat) :
    ∀ bs : List Nat, (kf_chunks n bs).flatten = bs.take (16 * n) := by
  induction n with
  | zero => intro bs; simp [kf_chunks]
  | succ n ih =>
    intro bs
    show (bs.take 16 :: kf_chunks n (bs.drop 16)).flatten = bs.take (16 * (n + 1))
    rw [List.flatten_cons, ih (bs.drop 16), show 16 * (n + 1) = 16 + 16 * n by ring,
      List.take_add]

lemma kf_chunks_of_flatten :
    ∀ cs : List (List Nat), (∀ c ∈ cs, c.length = 16) →
      kf_chunks cs.length cs.flatten = cs := by
  intro cs
  induction cs with
  | nil => intro _; rfl
  | cons c cs ih =>
    intro h
    have hc : c.length = 16 := h c (List.mem_cons_self c cs)
    show (c ++ cs.flatten).take 16 :: kf_chunks cs.length ((c ++ cs.flatten).drop 16) = c :: cs
    rw [← hc, List.take_left, List.drop_left,
      ih (fun q hq => h q (List.mem_cons_of_mem c hq))]

lemma flatten_length_16 :
    ∀ cs : List (List Nat), (∀ c ∈ cs, c.length = 16) →
      cs.flatten.length = 16 * cs.length := by
  intro cs
  induction cs with
  | nil => intro _; rfl
  | cons c cs ih =>
    intro h
    rw [List.flatten_cons, List.length_append, h c (List.mem_cons_self c cs),
      ih (fun q hq => h q (List.mem_cons_of_mem c hq)), List.length_cons]
    ring

lemma take16_append (a b : List Nat) (h : a.length = 16) : (a ++ b).take 16 = a := by
  rw [← h, List.take_left]

lemma drop16_append (a b : List Nat) (h : a.length = 16) : (a ++ b).drop 16 = b := by
  rw [← h, List.drop_left]

lemma kf_padLast_length (tail padding : List Nat) (r : Nat) (htail : tail.length = r)
    (hr : r ≤ 15) (hpad : 16 ≤ padding.length) : (kf_padLast tail padding r).length = 16 := by
  rw [kf_padLast]
  simp only [List.length_append, List.length_take, List.length_drop, List.length_cons,
    List.length_nil]
  omega

lemma kf_padLast_getD (tail padding : List Nat) (r : Nat) (htail : tail.length = r)
    (hr : r ≤ 15) (hpad : 16 ≤ padding.length) : (kf_padLast tail padding r).getD 15 0 = r := by
  have hbase : ((tail ++ (padding.take 16).drop r).take 15).length = 15 := by
    simp only [List.length_take, List.length_append, List.length_drop]
    omega
  rw [kf_padLast]
  have h15 : ((tail ++ (padding.take 16).drop r).take 15).length ≤ 15 := by rw [hbase]
  rw [show (15 : Nat) = ((tail ++ (padding.take 16).drop r).take 15).length from hbase.symm]
  simp [List.getD_eq_getElem?_getD, List.getElem?_append_right (le_refl _)]

lemma kf_padLast_take (tail padding : List Nat) (r : Nat) (htail : tail.length = r)
    (hr : r ≤ 15) : (kf_padLast tail padding r).take r = tail := by
  rw [kf_padLast, List.take_append_eq_append_take, List.take_take,
    List.take_append_eq_append_take]
  have h1 : min r 15 = r := by omega
  have h2 : tail.take r = tail := List.take_of_length_le (by omega)
  rw [h1, h2]
  have h3 : r - tail.length = 0 := by omega
  have h4 : r - ((tail ++ (padding.take 16).drop r).take 15).length = 0 := by
    simp only [List.length_take, List.length_append, List.length_drop]
    omega
  rw [h3, h4]
  simp

lemma kf_ptBlocks_lengths (pt padding : List Nat) (hpad : 16 ≤ padding.length) :
    ∀ b ∈ kf_ptBlocks pt padding, b.length = 16 := by
  have hchunks : ∀ b ∈ kf_chunks (pt.length / 16) pt, b.length = 16 := by
    refine kf_chunks_mem_length _ pt ?_
    have := Nat.div_mul_le_self pt.length 16
    omega
  intro b hb
  rw [kf_ptBlocks] at hb
  by_cases hr : pt.length % 16 = 0
  · rw [if_pos hr] at hb
    rcases List.mem_append.mp hb with h | h
    · exact hchunks b h
    · rw [List.mem_singleton.mp h]; simp
  · rw [if_neg hr] at hb
    rcases List.mem_append.mp hb with h | h
    · exact hchunks b h
    · rw [List.mem_singleton.mp h]
      refine kf_padLast_length _ _ _ ?_ (by omega) hpad
      rw [List.length_drop]
      omega

lemma kf_decrypt_recovered_eq (pass iv padding pt : List Nat) (hiv : iv.length = 16)
    (hpad : 16 ≤ padding.length) :
    kf_decrypt_recovered pass (kf_encrypt_file_cbc pass iv padding pt) =
      kf_ptBlocks pt padding := by
  have hw0 := kf_expand_wkey0 pass
  have hw1 := kf_expand_wkey1 pass
  have hivt : iv.take 16 = iv := List.take_of_length_le (by omega)
  have hpbs := kf_ptBlocks_lengths pt padding hpad
  have hcbs16 := kf_cbcEnc_lengths (kf_expand_passphrase pass) hw0 hw1
    (kf_ptBlocks pt padding) iv hiv hpbs
  have hm := kf_cbcEnc_len (kf_expand_passphrase pass) (kf_ptBlocks pt padding) iv
  have hflat : (kf_cbcEnc (kf_expand_passphrase pass) iv (kf_ptBlocks pt padding)).flatten.length
      = 16 * (kf_ptBlocks pt padding).length := by
    rw [flatten_length_16 _ hcbs16, hm]
  rw [kf_decrypt_recovered, kf_encrypt_file_cbc, hivt]
  rw [take16_append _ _ hiv, drop16_append _ _ hiv]
  have hslen : (iv ++
      (kf_cbcEnc (kf_expand_passphrase pass) iv (kf_ptBlocks pt padding)).flatten).length =
      16 + 16 * (kf_ptBlocks pt padding).length := by
    rw [List.length_append, hiv, hflat]
  rw [hslen]
  have hcount : (16 + 16 * (kf_ptBlocks pt padding).length) / 16 - 1 =
      (kf_ptBlocks pt padding).length := by omega
  rw [hcount, ← hm, kf_chunks_of_flatten _ hcbs16]
  exact kf_cbcDec_cbcEnc (kf_expand_passphrase pass) hw0 hw1 (kf_ptBlocks pt padding) iv hiv
    hpbs

/-- Core round-trip fact shared by the round-trip and concrete-scenario
theorems. -/
lemma kf_roundtrip_aux (pass iv padding pt : List Nat) (hiv : iv.length = 16)
    (hpad : 16 ≤ padding.length) :
    kf_decrypt_file_cbc pass (kf_encrypt_file_cbc pass iv padding pt) = pt := by
  rw [kf_decrypt_file_cbc, kf_decrypt_recovered_eq pass iv padding pt hiv hpad]
  by_cases hr : pt.length % 16 = 0
  · rw [kf_ptBlocks, if_pos hr, List.dropLast_concat, List.getLast?_concat]
    show (kf_chunks (pt.length / 16) pt).flatten ++
      (List.replicate 16 0).take ((List.replicate 16 0).getD 15 0) = pt
    have hz : (List.replicate (16 : Nat) (0 : Nat)).getD 15 0 = 0 := by decide
    rw [hz, List.take_zero, List.append_nil, kf_chunks_flatten]
    have h16q : 16 * (pt.length / 16) = pt.length := by omega
    rw [h16q, List.take_length]
  · rw [kf_ptBlocks, if_neg hr, List.dropLast_concat, List.getLast?_concat]
    have htail : (pt.drop (16 * (pt.length / 16))).length = pt.length % 16 := by
      rw [List.length_drop]
      have := Nat.div_mul_le_self pt.length 16
      omega
    have hrle : pt.length % 16 ≤ 15 := by omega
    show (kf_chunks (pt.length / 16) pt).flatten ++
      (kf_padLast (pt.drop (16 * (pt.length / 16))) padding (pt.length % 16)).take
        ((kf_padLast (pt.drop (16 * (pt.length / 16))) padding (pt.length % 16)).getD 15 0) = pt
    rw [kf_padLast_getD _ _ _ htail hrle hpad, kf_padLast_take _ _ _ htail hrle,
      kf_chunks_flatten, List.take_append_drop]

lemma kf_invert_wkey0 (k : kf_ctx) : (kf_invert_ctx k).wkey.getD 0 [] = k.wkey.getD 1 [] :=
  rfl

lemma kf_invert_wkey1 (k : kf_ctx) : (kf_invert_ctx k).wkey.getD 1 [] = k.wkey.getD 0 [] :=
  rfl

lemma kf_encrypt_length (pass iv padding pt : List Nat) (hiv : iv.length = 16)
    (hpad : 16 ≤ padding.length) :
    (kf_encrypt_file_cbc pass iv padding pt).length =
      16 + 16 * (kf_ptBlocks pt padding).length := by
  have hkey : (iv.take 16).length = 16 := by simp [hiv]
  rw [kf_encrypt_file_cbc, List.length_append,
    flatten_length_16 _ (kf_cbcEnc_lengths (kf_expand_passphrase pass) (kf_expand_wkey0 pass)
      (kf_expand_wkey1 pass) (kf_ptBlocks pt padding) (iv.take 16) hkey
      (kf_ptBlocks_lengths pt padding hpad)),
    kf_cbcEnc_len, hkey]

lemma kf_block_st_foldl (ctx : kf_ctx) (is : List Nat) :
    ∀ b : List Nat,
      is.foldl (fun (st : List Nat × kf_ctx) i => kf_round_st st.1 i st.2) (b, ctx) =
        (is.foldl (fun x i => kf_round x i ctx) b, ctx) := by
  induction is with
  | nil => intro b; rfl
  | cons i is ih =>
    intro b
    rw [List.foldl_cons, List.foldl_cons]
    have h1 : kf_round_st b i ctx = (kf_round b i ctx, ctx) := rfl
    show is.foldl (fun (st : List Nat × kf_ctx) i => kf_round_st st.1 i st.2)
      (kf_round_st b i ctx) = _
    rw [h1]
    exact ih (kf_round b i ctx)

/-- C1: for every passphrase, every 16-byte IV, every padding supply of at
least 16 bytes and every plaintext byte sequence (zero-length, one-block and
multi-block-with-remainder lengths included), decrypting the stream produced by
kf_encrypt_file_cbc with kf_decrypt_file_cbc under the same passphrase
reproduces the plaintext exactly. -/
theorem c1_cbc_roundtrip (pass iv padding pt : List Nat) (hiv : iv.length = 16)
    (hpad : 16 ≤ padding.length) :
    kf_decrypt_file_cbc pass (kf_encrypt_file_cbc pass iv padding pt) = pt :=
  kf_roundtrip_aux pass iv padding pt hiv hpad

/-- Witness for c1_cbc_roundtrip: passphrase "test", all-zero IV, 16 bytes of
padding, 3-byte plaintext. -/
theorem c1_cbc_roundtrip_witness :
    kf_decrypt_file_cbc [116, 101, 115, 116]
      (kf_encrypt_file_cbc [116, 101, 115, 116] (List.replicate 16 0)
        (List.replicate 16 170) [1, 2, 3]) = [1, 2, 3] :=
  c1_cbc_roundtrip [116, 101, 115, 116] (List.replicate 16 0) (List.replicate 16 170)
    [1, 2, 3] (by decide) (by decide)

/-- C2: for every context produced by kf_expand_passphrase and every 16-byte
block, kf_block with the context followed by kf_block with the inverted
context recovers the block. -/
theorem c2_block_inversion (pass x : List Nat) (hx : x.length = 16) :
    kf_block (kf_block x (kf_expand_passphrase pass))
      (kf_invert_ctx (kf_expand_passphrase pass)) = x :=
  kf_block_invert (kf_expand_passphrase pass) x (kf_expand_wkey0 pass)
    (kf_expand_wkey1 pass) hx

/-- Witness for c2_block_inversion: passphrase "abcdefgh" and the block
0, 1, ..., 15. -/
theorem c2_block_inversion_witness :
    kf_block
      (kf_block [0, 1, 2, 3, 4, 5, 6, 7, 8, 9, 10, 11, 12, 13, 14, 15]
        (kf_expand_passphrase [97, 98, 99, 100, 101, 102, 103, 104]))
      (kf_invert_ctx (kf_expand_passphrase [97, 98, 99, 100, 101, 102, 103, 104])) =
      [0, 1, 2, 3, 4, 5, 6, 7, 8, 9, 10, 11, 12, 13, 14, 15] :=
  c2_block_inversion [97, 98, 99, 100, 101, 102, 103, 104]
    [0, 1, 2, 3, 4, 5, 6, 7, 8, 9, 10, 11, 12, 13, 14, 15] (by decide)

/-- C3: for every 32-bit seed, kf_init_sbox is a bijection over [0,256) and
kf_init_pbox is a bijection over [0,PBOX_SIZE): each table has full length and
every value in range appears at exactly one position. -/
theorem c3_boxes_bijective (seed : Nat) :
    ((kf_init_sbox seed).length = 256 ∧
      ∀ v, v < 256 → (kf_init_sbox seed).count v = 1) ∧
    ((kf_init_pbox seed).length = PBOX_SIZE ∧
      ∀ v, v < PBOX_SIZE → (kf_init_pbox seed).count v = 1) := by
  have hs := kf_init_sbox_perm seed
  have hp := kf_init_pbox_perm seed
  refine ⟨⟨?_, ?_⟩, ?_, ?_⟩
  · rw [hs.length_eq, List.length_range]
  · intro v hv
    rw [hs.count_eq]
    exact List.count_eq_one_of_mem (List.nodup_range 256) (List.mem_range.mpr hv)
  · rw [hp.length_eq, List.length_range]
    rfl
  · intro v hv
    rw [hp.count_eq]
    exact List.count_eq_one_of_mem (List.nodup_range 8)
      (List.mem_range.mpr (by simpa [PBOX_SIZE] using hv))

/-- Witness for c3_boxes_bijective at the seed 0xDEADBEEF used by the
repository's pbox test, checking the count of the value 7 in both boxes. -/
theorem c3_boxes_bijective_witness :
    (kf_init_sbox 3735928559).count 7 = 1 ∧ (kf_init_pbox 3735928559).count 7 = 1 :=
  ⟨(c3_boxes_bijective 3735928559).1.2 7 (by decide),
   (c3_boxes_bijective 3735928559).2.2 7 (by decide)⟩

/-- C4: for the 3-byte passphrase "abc" the size_t loop bound `passlen - 4`
underflows to 2^64 - 1, so the chunk loop's trip count is 2^62 instead of the
zero the claim requires; the loop body does execute. -/
theorem c4_short_passphrase_underflow :
    kf_passlen [97, 98, 99] = 3 ∧
    kf_chunkTrips (kf_passlen [97, 98, 99]) ≠ 0 ∧
    kf_chunkTrips (kf_passlen [97, 98, 99]) = 2 ^ 62 := by decide

/-- C5: the chunk load of the bytes 'a' 'b' 'c' 'd' yields 0x61 (the first
byte alone), not the little-endian word 0x64636261 the claim states, because
the uint8_t casts are applied after the shifts. -/
theorem c5_chunk_load_truncated :
    kf_loadChunk 97 98 99 100 = 97 ∧ kf_loadChunk 97 98 99 100 ≠ 1684234849 := by decide

/-- C6 counterexample: for the 8-byte passphrase "abcdefgh" the chunk loop
executes once, not floor(8/4) = 2 times as the claim states. -/
theorem c6_chunk_count_counterexample :
    kf_passlen [97, 98, 99, 100, 101, 102, 103, 104] = 8 ∧
    kf_chunkTrips (kf_passlen [97, 98, 99, 100, 101, 102, 103, 104]) = 1 ∧
    kf_chunkTrips (kf_passlen [97, 98, 99, 100, 101, 102, 103, 104]) ≠ 8 / 4 := by decide

/-- C6 amended: for truncated length passlen >= 4 the chunk loop executes
(passlen - 1) / 4 iterations at offsets 0, 4, ... (one fewer than
floor(passlen/4) when passlen is a multiple of 4), and the remainder buffer
holds the passlen mod 4 bytes starting at offset passlen - 4 (which are not the
final bytes when passlen mod 4 is nonzero), zero-padded to 4 bytes and mixed
exactly once even when empty. -/
theorem c6_chunk_partition_amended (pass : List Nat) (h4 : 4 ≤ kf_passlen pass) :
    kf_chunkTrips (kf_passlen pass) = (kf_passlen pass - 1) / 4 ∧
    kf_chunkStarts (kf_passlen pass) =
      (List.range ((kf_passlen pass - 1) / 4)).map (fun k => 4 * k) ∧
    kf_lastBytes pass (kf_passlen pass) = (List.range 4).map
      (fun i => if i < kf_passlen pass % 4 then pass.getD (kf_passlen pass - 4 + i) 0
        else 0) := by
  have hle : kf_passlen pass ≤ 256 := min_le_right _ _
  have hbound : kf_chunkBound (kf_passlen pass) = kf_passlen pass - 4 := by
    rw [kf_chunkBound]
    omega
  refine ⟨?_, ?_, ?_⟩
  · rw [kf_chunkTrips, hbound]
    omega
  · have harg : (kf_passlen pass - 4 + 3) / 4 = (kf_passlen pass - 1) / 4 := by omega
    rw [kf_chunkStarts, kf_chunkTrips, hbound, harg]
  · simp only [kf_lastBytes, hbound]

/-- Witness for c6_chunk_partition_amended at the 6-byte passphrase
"abcdef". -/
theorem c6_chunk_partition_amended_witness :
    kf_chunkTrips (kf_passlen [97, 98, 99, 100, 101, 102]) =
      (kf_passlen [97, 98, 99, 100, 101, 102] - 1) / 4 ∧
    kf_chunkStarts (kf_passlen [97, 98, 99, 100, 101, 102]) =
      (List.range ((kf_passlen [97, 98, 99, 100, 101, 102] - 1) / 4)).map (fun k => 4 * k) ∧
    kf_lastBytes [97, 98, 99, 100, 101, 102] (kf_passlen [97, 98, 99, 100, 101, 102]) =
      (List.range 4).map
        (fun i => if i < kf_passlen [97, 98, 99, 100, 101, 102] % 4 then
          ([97, 98, 99, 100, 101, 102] : List Nat).getD
            (kf_passlen [97, 98, 99, 100, 101, 102] - 4 + i) 0 else 0) :=
  c6_chunk_partition_amended [97, 98, 99, 100, 101, 102] (by decide)

/-- C7 counterexample: with passphrase "test", all-zero IV, 16 padding bytes
and the plaintext 01 02 03 04 05, the ciphertext stream is 32 bytes (the IV
block plus one cipher block), not the 48 bytes (three blocks) the claim
states. -/
theorem c7_stream_length_counterexample :
    (kf_encrypt_file_cbc [116, 101, 115, 116] (List.replicate 16 0) (List.replicate 16 170)
      [1, 2, 3, 4, 5]).length = 32 ∧
    (kf_encrypt_file_cbc [116, 101, 115, 116] (List.replicate 16 0) (List.replicate 16 170)
      [1, 2, 3, 4, 5]).length ≠ 48 := by
  have hb : (kf_ptBlocks [1, 2, 3, 4, 5] (List.replicate 16 170)).length = 1 := by
    rw [kf_ptBlocks, if_neg (by decide)]
    rfl
  have h := kf_encrypt_length [116, 101, 115, 116] (List.replicate 16 0)
    (List.replicate 16 170) [1, 2, 3, 4, 5] (by decide) (by decide)
  rw [h, hb]
  omega

/-- C7 amended: with passphrase "test", all-zero IV and plaintext
01 02 03 04 05, the ciphertext stream is exactly 2 blocks (32 bytes: IV plus
one partial-padded cipher block), decryption recovers exactly the 5 original
bytes, and the final recovered block's padding-length byte is 5. -/
theorem c7_concrete_scenario_amended :
    (kf_encrypt_file_cbc [116, 101, 115, 116] (List.replicate 16 0) (List.replicate 16 170)
      [1, 2, 3, 4, 5]).length = 32 ∧
    kf_decrypt_file_cbc [116, 101, 115, 116]
      (kf_encrypt_file_cbc [116, 101, 115, 116] (List.replicate 16 0)
        (List.replicate 16 170) [1, 2, 3, 4, 5]) = [1, 2, 3, 4, 5] ∧
    ((kf_decrypt_recovered [116, 101, 115, 116]
      (kf_encrypt_file_cbc [116, 101, 115, 116] (List.replicate 16 0)
        (List.replicate 16 170) [1, 2, 3, 4, 5])).getLastD []).getD 15 0 = 5 := by
  refine ⟨?_, ?_, ?_⟩
  · have hb : (kf_ptBlocks [1, 2, 3, 4, 5] (List.replicate 16 170)).length = 1 := by
      rw [kf_ptBlocks, if_neg (by decide)]
      rfl
    rw [kf_encrypt_length [116, 101, 115, 116] (List.replicate 16 0)
      (List.replicate 16 170) [1, 2, 3, 4, 5] (by decide) (by decide), hb]
  · exact kf_roundtrip_aux _ _ _ _ (by decide) (by decide)
  · rw [kf_decrypt_recovered_eq _ _ _ _ (by decide) (by decide)]
    rw [kf_ptBlocks, if_neg (by decide)]
    have hch : kf_chunks (([1, 2, 3, 4, 5] : List Nat).length / 16) [1, 2, 3, 4, 5] = [] :=
      rfl
    rw [hch, List.nil_append]
    show (kf_padLast (([1, 2, 3, 4, 5] : List Nat).drop
      (16 * (([1, 2, 3, 4, 5] : List Nat).length / 16))) (List.replicate 16 170)
      (([1, 2, 3, 4, 5] : List Nat).length % 16)).getD 15 0 = 5
    exact kf_padLast_getD _ _ _ (by decide) (by decide) (by decide)

/-- C8: a concrete corrupt 32-byte stream whose final recovered block carries
the padding-length byte 255 (greater than 15): kf_decrypt_file_cbc does not
reject it and emits a 16-byte output. -/
theorem c8_padding_byte_unchecked :
    ((kf_decrypt_recovered [116, 101, 115, 116]
        (List.zipWith Nat.xor
          (kf_block (List.replicate 16 0)
            (kf_invert_ctx (kf_expand_passphrase [116, 101, 115, 116])))
          (List.replicate 15 0 ++ [255]) ++ List.replicate 16 0)).getLastD []).getD 15 0
      = 255 ∧
    (kf_decrypt_file_cbc [116, 101, 115, 116]
        (List.zipWith Nat.xor
          (kf_block (List.replicate 16 0)
            (kf_invert_ctx (kf_expand_passphrase [116, 101, 115, 116])))
          (List.replicate 15 0 ++ [255]) ++ List.replicate 16 0)).length = 16 := by
  have hw0 : (((kf_invert_ctx (kf_expand_passphrase [116, 101, 115, 116])).wkey.getD 0
      []).length) = 4 := by
    rw [kf_invert_wkey0]
    exact kf_expand_wkey1 [116, 101, 115, 116]
  have hw1 : (((kf_invert_ctx (kf_expand_passphrase [116, 101, 115, 116])).wkey.getD 1
      []).length) = 4 := by
    rw [kf_invert_wkey1]
    exact kf_expand_wkey0 [116, 101, 115, 116]
  have hB : (kf_block (List.replicate 16 0)
      (kf_invert_ctx (kf_expand_passphrase [116, 101, 115, 116]))).length = 16 :=
    kf_block_length _ _ hw0 hw1 (by decide)
  have htgt : (List.replicate 15 0 ++ [255] : List Nat).length = 16 := by decide
  have hIV : (List.zipWith Nat.xor
      (kf_block (List.replicate 16 0)
        (kf_invert_ctx (kf_expand_passphrase [116, 101, 115, 116])))
      (List.replicate 15 0 ++ [255])).length = 16 := by
    rw [zipWith_xor_length _ _ (by rw [hB, htgt])]
    exact hB
  have hrec : kf_decrypt_recovered [116, 101, 115, 116]
      (List.zipWith Nat.xor
        (kf_block (List.replicate 16 0)
          (kf_invert_ctx (kf_expand_passphrase [116, 101, 115, 116])))
        (List.replicate 15 0 ++ [255]) ++ List.replicate 16 0) =
      [List.replicate 15 0 ++ [255]] := by
    rw [kf_decrypt_recovered, take16_append _ _ hIV, drop16_append _ _ hIV]
    have hslen : (List.zipWith Nat.xor
        (kf_block (List.replicate 16 0)
          (kf_invert_ctx (kf_expand_passphrase [116, 101, 115, 116])))
        (List.replicate 15 0 ++ [255]) ++ List.replicate 16 0).length = 32 := by
      rw [List.length_append, hIV, List.length_replicate]
    rw [hslen]
    have hcount : (32 : Nat) / 16 - 1 = 1 := by decide
    rw [hcount]
    have hch : kf_chunks 1 (List.replicate 16 0) = [List.replicate 16 0] := by decide
    rw [hch]
    show List.zipWith Nat.xor
      (kf_block (List.replicate 16 0)
        (kf_invert_ctx (kf_expand_passphrase [116, 101, 115, 116])))
      (List.zipWith Nat.xor
        (kf_block (List.replicate 16 0)
          (kf_invert_ctx (kf_expand_passphrase [116, 101, 115, 116])))
        (List.replicate 15 0 ++ [255])) :: [] = [List.replicate 15 0 ++ [255]]
    rw [zipWith_xor_cancel_left _ _ (by rw [hB, htgt])]
  constructor
  · rw [hrec]
    decide
  · rw [kf_decrypt_file_cbc, hrec]
    show (([List.replicate 15 0 ++ [255]] :
        List (List Nat)).dropLast.flatten ++
      (List.replicate 15 0 ++ [255]).take
        ((List.replicate 15 0 ++ [255] : List Nat).getD 15 0)).length = 16
    decide

/-- C9: kf_pht computes a+b and a+2b modulo 2^32, and the transform is
reversible at the word level via b = b-prime minus a-prime and a = 2 a-prime
minus b-prime, modulo 2^32. -/
theorem c9_pht_add_mod (a b : Nat) (ha : a < 2 ^ 32) (hb : b < 2 ^ 32) :
    kf_pht a b = ((a + b) % 2 ^ 32, (a + 2 * b) % 2 ^ 32) ∧
    ((kf_pht a b).2 + 2 ^ 32 - (kf_pht a b).1) % 2 ^ 32 = b ∧
    (2 * (kf_pht a b).1 + 2 ^ 32 - (kf_pht a b).2) % 2 ^ 32 = a := by
  have hfst : (kf_pht a b).1 = (a + b) % 2 ^ 32 := by
    simp only [kf_pht, PHT_MAX]
    omega
  have hsnd : (kf_pht a b).2 = (a + 2 * b) % 2 ^ 32 := by
    simp only [kf_pht, PHT_MAX]
    omega
  refine ⟨Prod.ext hfst hsnd, ?_, ?_⟩
  · rw [hfst, hsnd]
    omega
  · rw [hfst, hsnd]
    omega

/-- Witness for c9_pht_add_mod at a = 3000000000, b = 4000000000 (both inside
the 32-bit range, with wraparound exercised). -/
theorem c9_pht_add_mod_witness :
    kf_pht 3000000000 4000000000 =
      ((3000000000 + 4000000000) % 2 ^ 32, (3000000000 + 2 * 4000000000) % 2 ^ 32) ∧
    ((kf_pht 3000000000 4000000000).2 + 2 ^ 32 - (kf_pht 3000000000 4000000000).1) % 2 ^ 32
      = 4000000000 ∧
    (2 * (kf_pht 3000000000 4000000000).1 + 2 ^ 32 - (kf_pht 3000000000 4000000000).2) %
      2 ^ 32 = 3000000000 :=
  c9_pht_add_mod 3000000000 4000000000 (by decide) (by decide)

/-- Unfolding of the state-threaded block function: the returned context is
the received one. -/
lemma kf_block_st_spec (x : List Nat) (ctx : kf_ctx) :
    kf_block_st x ctx = (kf_block x ctx, ctx) := by
  simp only [kf_block_st, kf_block]
  rw [kf_block_st_foldl]

/-- C10: kf_f, kf_round and kf_block leave every field of the context
unchanged (the threaded context they return is the one they received), and
agree with the pure transforms; the context is immutable under block
processing. -/
theorem c10_context_immutable (x : List Nat) (r : Nat) (ctx : kf_ctx) :
    (kf_f_st x r ctx).2 = ctx ∧ (kf_round_st x r ctx).2 = ctx ∧
    (kf_block_st x ctx).2 = ctx ∧
    (kf_f_st x r ctx).1 = kf_f x r ctx ∧ (kf_round_st x r ctx).1 = kf_round x r ctx ∧
    (kf_block_st x ctx).1 = kf_block x ctx := by
  refine ⟨rfl, rfl, ?_, rfl, rfl, ?_⟩
  · rw [kf_block_st_spec]
  · rw [kf_block_st_spec]

end KF128
